import Mathlib

/-!
Verification of the product-catalog CRUD backend (okpos).

The development shallowly embeds the data model (Tag, Product, ProductOption,
product-tag association) and the reconciliation logic of
`apps/shop/serializers.py` / `apps/shop/views.py`:

* `ProductOptionSerializer.validate_name` and
  `ProductSerializer.create/update/_process_tags` are translated directly
  from the source.
* The serializer layer's handling of tag input follows the declarations in
  the source plus the framework's semantics: `TagSerializer` marks `pk`
  read-only (serializers.py line 10), so input validation drops it before
  `validated_data` is formed, and the auto-generated CharField trims
  `name` — see `validateTagSpec`.
* The nested option write-back (provided by `drf_writable_nested`), the
  delete cascade (declared on the models) and the transactional wrapper are
  not part of the sources; they are modelled from the specification, and each
  such definition says so in its doc comment.

The store is a functional record of table contents plus auto-increment
counters; every operation is an executable function so that concrete runs
can be checked by `decide`.
-/

namespace OkPos

/-- A row of the Tag table: `{id, name}`. -/
structure Tag where
  pk : Nat
  name : String
deriving DecidableEq, Repr

/-- A row of the Product table: `{id, name}`. -/
structure Product where
  pk : Nat
  name : String
deriving DecidableEq, Repr

/-- A row of the ProductOption table: `{id, product_id, name, price}`. -/
structure ProductOption where
  pk : Nat
  productPk : Nat
  name : String
  price : Int
deriving DecidableEq, Repr

/-- The relational store: the three tables, the many-to-many
product-tag association (pairs `(productPk, tagPk)`), and the
auto-increment counters used when inserting rows. -/
structure Store where
  tags : List Tag
  products : List Product
  options : List ProductOption
  assoc : List (Nat × Nat)
  nextTagPk : Nat
  nextProductPk : Nat
  nextOptionPk : Nat
deriving DecidableEq, Repr

/-- A submitted tag entry, `TagSpec = {id?: integer, name: string}`.
`name = none` models a JSON object lacking the `name` key (which also
subsumes the empty object), `pk = none` a missing or null `pk` key. -/
structure TagSpec where
  pk : Option Nat := none
  name : Option String := none
deriving DecidableEq, Repr

/-- A submitted option entry, `OptionSpec = {id?: integer, name: string,
price: integer}`. -/
structure OptionSpec where
  pk : Option Nat := none
  name : String
  price : Int
deriving DecidableEq, Repr

/-- Errors surfaced to the client: a field-keyed validation error
(HTTP 400) or a missing top-level resource (HTTP 404). -/
inductive ReqError where
  | validation (field : String) (message : String)
  | notFound
deriving DecidableEq, Repr

deriving instance DecidableEq for Except

/-- The message raised by `_process_tags` for a dangling tag pk. -/
def tagMissingMsg (pk : Nat) : String :=
  "태그 ID " ++ toString pk ++ "가 존재하지 않습니다."

/-- The message raised by `ProductOptionSerializer.validate_name`. -/
def optionNameMsg : String := "옵션명은 필수입니다."

/-- Python's `str.strip()`: drop leading and trailing whitespace. Written
by structural recursion over the character list so that concrete runs
reduce in the kernel. -/
def pyStrip (s : String) : String :=
  ⟨(((s.data.dropWhile Char.isWhitespace).reverse).dropWhile
      Char.isWhitespace).reverse⟩

/-- Translation of `ProductOptionSerializer.validate_name`:
reject a name that is empty or whitespace-only (`not value or not
value.strip()`), otherwise return the stripped name (`value.strip()`). -/
def validate_name (value : String) : Except String String :=
  if value = "" ∨ pyStrip value = "" then Except.error optionNameMsg
  else Except.ok (pyStrip value)

/-- The truthiness test `'pk' in tag_data and tag_data['pk']` used by
`_process_tags`: a present, non-zero, non-null pk. -/
def TagSpec.livePk : TagSpec → Option Nat
  | ⟨some p, _⟩ => if p = 0 then none else some p
  | ⟨none, _⟩ => none

/-- `Tag.objects.get_or_create(name=tag_name)`: reuse the first tag with
that name, otherwise insert a fresh row under the next pk. -/
def getOrCreateTag (st : Store) (nm : String) : Store × Tag :=
  match st.tags.find? (fun t => t.name == nm) with
  | some t => (st, t)
  | none =>
    let t : Tag := ⟨st.nextTagPk, nm⟩
    ({ st with tags := st.tags ++ [t], nextTagPk := st.nextTagPk + 1 }, t)

/-- Loop body of `ProductSerializer._process_tags`: walk the submitted
specs in order, skipping entries without a name and entries whose name was
already seen, resolving a live pk by lookup (error when absent) and a
missing pk by get-or-create, accumulating the tag instances to associate. -/
def processTagsAux : Store → List TagSpec → List Tag → List String →
    Except ReqError (Store × List Tag)
  | st, [], acc, _ => Except.ok (st, acc)
  | st, spec :: rest, acc, seen =>
    match spec.name with
    | none => processTagsAux st rest acc seen
    | some nm =>
      if nm ∈ seen then
        processTagsAux st rest acc seen
      else
        match spec.livePk with
        | some p =>
          match st.tags.find? (fun t => t.pk == p) with
          | some t => processTagsAux st rest (acc ++ [t]) (nm :: seen)
          | none => Except.error (ReqError.validation "tag_set" (tagMissingMsg p))
        | none =>
          let r := getOrCreateTag st nm
          processTagsAux r.1 rest (acc ++ [r.2]) (nm :: seen)

/-- `product.tag_set.set(tag_instances)`: replace the product's
association rows with exactly the accumulated tags (duplicates collapse,
since the association is a set keyed by `(productPk, tagPk)`). -/
def setProductTags (st : Store) (pid : Nat) (ts : List Tag) : Store :=
  { st with assoc :=
      st.assoc.filter (fun a => a.1 != pid) ++
        (ts.map Tag.pk).dedup.map (fun k => (pid, k)) }

/-- `ProductSerializer._process_tags`: run the loop, then replace the
product's tag association with the accumulated instances. -/
def processTags (st : Store) (pid : Nat) (specs : List TagSpec) :
    Except ReqError Store :=
  match processTagsAux st specs [] [] with
  | Except.error e => Except.error e
  | Except.ok (st', ts) => Except.ok (setProductTags st' pid ts)

/-- Serializer-level validation of a submitted option list: every name is
passed through `validate_name` (so stored names are trimmed) and the first
failure aborts the request, surfaced under the `option_set` field as the
swagger examples in `views.py` document. -/
def validateOptions : List OptionSpec → Except ReqError (List OptionSpec)
  | [] => Except.ok []
  | o :: rest =>
    match validate_name o.name with
    | Except.error m => Except.error (ReqError.validation "option_set" m)
    | Except.ok nm =>
      match validateOptions rest with
      | Except.error e => Except.error e
      | Except.ok rest' => Except.ok ({ o with name := nm } :: rest')

/-- Fresh option rows for specs classified as creations, owned by `pid`,
with pks assigned consecutively from `base`. -/
def mkCreated (pid : Nat) : Nat → List OptionSpec → List ProductOption
  | _, [] => []
  | base, s :: rest =>
    ProductOption.mk base pid s.name s.price :: mkCreated pid (base + 1) rest

/-- Whether a spec is classified as an in-place update: it carries a pk
matching an option owned by the product. -/
def isOptionUpdate (ownedPks : List Nat) (s : OptionSpec) : Bool :=
  match s.pk with
  | some p => ownedPks.contains p
  | none => false

/-- Modelled from the spec: the Option Reconciler of §4.1 (implemented in
the repository by `drf_writable_nested`'s nested write-back, whose code is
not under `src/`; `views.py`'s update documentation states the same three
rules). A spec whose pk matches an option owned by the product updates
that option's name and price in place; a spec without such a pk creates a
new option owned by the product; every owned option absent from the
submitted pks is deleted. -/
def applyOptionDiff (st : Store) (pid : Nat) (specs : List OptionSpec) : Store :=
  let ownedPks := (st.options.filter (fun o => o.productPk == pid)).map ProductOption.pk
  let submittedPks := specs.filterMap OptionSpec.pk
  let kept := st.options.filter
    (fun o => o.productPk != pid || submittedPks.contains o.pk)
  let updated := kept.map (fun o =>
    if o.productPk == pid then
      match specs.find? (fun s => s.pk == some o.pk) with
      | some s => { o with name := s.name, price := s.price }
      | none => o
    else o)
  let newSpecs := specs.filter (fun s => !(isOptionUpdate ownedPks s))
  { st with options := updated ++ mkCreated pid st.nextOptionPk newSpecs,
            nextOptionPk := st.nextOptionPk + newSpecs.length }

/-- A create request body: `name` is required, the nested lists may be
omitted (`none`) or given (possibly empty). -/
structure ProductInput where
  name : String
  option_set : Option (List OptionSpec) := none
  tag_set : Option (List TagSpec) := none
deriving DecidableEq, Repr

/-- A PATCH request body: every field may be omitted. -/
structure ProductPatch where
  name : Option String := none
  option_set : Option (List OptionSpec) := none
  tag_set : Option (List TagSpec) := none
deriving DecidableEq, Repr

/-- Serializer-layer validation of a submitted tag entry. `TagSerializer`
declares `read_only_fields = ['pk']` (serializers.py line 10), and under
the framework's semantics a read-only field is ignored on input: it never
reaches `validated_data`, so the tag dicts that
`ProductSerializer.create/update` pop from `validated_data['tag_set']`
carry no pk. The auto-generated CharField for `name` trims surrounding
whitespace on input, exactly as for option names. A nameless entry is
passed through; `_process_tags` skips it (spec §4.2 step 1). -/
def validateTagSpec (s : TagSpec) : TagSpec :=
  ⟨none, s.name.map pyStrip⟩

/-- The tag list as `ProductSerializer.create/update` receive it in
`validated_data['tag_set']`: every entry's read-only pk dropped and its
name trimmed. -/
def validateTags (specs : List TagSpec) : List TagSpec :=
  specs.map validateTagSpec

/-- `ProductSerializer.create`: validate the submitted options, insert the
product row, write the options (all fresh for a new product), then run
`_process_tags` with the validated tags, defaulting to `[]` when the field
is absent (`validated_data.pop('tag_set', [])`). Returns the new store and
the created product's pk. -/
def createProduct (st : Store) (inp : ProductInput) :
    Except ReqError (Store × Nat) :=
  match validateOptions (inp.option_set.getD []) with
  | Except.error e => Except.error e
  | Except.ok opts =>
    let pid := st.nextProductPk
    let st1 : Store :=
      { st with products := st.products ++ [⟨pid, inp.name⟩],
                nextProductPk := pid + 1 }
    let st2 := applyOptionDiff st1 pid opts
    match processTags st2 pid (validateTags (inp.tag_set.getD [])) with
    | Except.error e => Except.error e
    | Except.ok st3 => Except.ok (st3, pid)

/-- Validation of an optional `option_set` field: absent means no option
write-back, present means every spec's name is validated. -/
def validateOptions? :
    Option (List OptionSpec) → Except ReqError (Option (List OptionSpec))
  | none => Except.ok none
  | some l =>
    match validateOptions l with
    | Except.error e => Except.error e
    | Except.ok v => Except.ok (some v)

/-- Scalar-field update of a PATCH: rewrite the product's name when one
was submitted. -/
def updateName (st : Store) (pid : Nat) : Option String → Store
  | none => st
  | some nm =>
    { st with products := st.products.map (fun pr =>
        if pr.pk == pid then { pr with name := nm } else pr) }

/-- Run the option diff only when an (already validated) `option_set`
was present. -/
def applyOptionDiff? (st : Store) (pid : Nat) :
    Option (List OptionSpec) → Store
  | none => st
  | some v => applyOptionDiff st pid v

/-- Run `_process_tags` only when a `tag_set` field was present
(`validated_data.pop('tag_set', None)` with the `is not None` guard). -/
def processTags? (st : Store) (pid : Nat) :
    Option (List TagSpec) → Except ReqError Store
  | none => Except.ok st
  | some ts => processTags st pid ts

/-- `ProductSerializer.update` driven by `partial_update`: 404 when the
product is missing, update the name when submitted, run the option diff
only when `option_set` is present, and run `_process_tags` on the
validated tag entries only when `tag_set` is present. -/
def updateProduct (st : Store) (pid : Nat) (inp : ProductPatch) :
    Except ReqError Store :=
  if st.products.any (fun pr => pr.pk == pid) then
    match validateOptions? inp.option_set with
    | Except.error e => Except.error e
    | Except.ok vopts =>
      processTags? (applyOptionDiff? (updateName st pid inp.name) pid vopts)
        pid (inp.tag_set.map validateTags)
  else Except.error ReqError.notFound

/-- Modelled from the spec: the Delete endpoint of §4.3 (the cascade is
declared on the models, whose file is not under `src/`; the delete
docstring in `views.py` states that owned options are removed with the
product). The product row, its options and its association rows are
removed; Tag rows persist. 404 when the product is missing. -/
def destroyProduct (st : Store) (pid : Nat) : Except ReqError Store :=
  if st.products.any (fun pr => pr.pk == pid) then
    Except.ok
      { st with products := st.products.filter (fun pr => pr.pk != pid),
                options := st.options.filter (fun o => o.productPk != pid),
                assoc := st.assoc.filter (fun a => a.1 != pid) }
  else Except.error ReqError.notFound

/-- Modelled from the spec: transactional execution (§1(c), §5) — the
framework runs a create request atomically, so on error the store is
rolled back to its pre-request state and the error is surfaced. -/
def runCreate (st : Store) (inp : ProductInput) : Store × Option ReqError :=
  match createProduct st inp with
  | Except.ok r => (r.1, none)
  | Except.error e => (st, some e)

/-- Modelled from the spec: transactional execution (§1(c), §5) for an
update request — on error the store is rolled back to its pre-request
state and the error is surfaced. -/
def runUpdate (st : Store) (pid : Nat) (inp : ProductPatch) :
    Store × Option ReqError :=
  match updateProduct st pid inp with
  | Except.ok st' => (st', none)
  | Except.error e => (st, some e)

/-- Store well-formedness: every row's pk is below the corresponding
auto-increment counter and pks are unique per table. -/
def StoreWF (st : Store) : Prop :=
  (∀ t ∈ st.tags, t.pk < st.nextTagPk) ∧
  (st.tags.map Tag.pk).Nodup ∧
  (∀ o ∈ st.options, o.pk < st.nextOptionPk) ∧
  (st.options.map ProductOption.pk).Nodup ∧
  (∀ pr ∈ st.products, pr.pk < st.nextProductPk)

instance (st : Store) : Decidable (StoreWF st) := by
  unfold StoreWF; infer_instance

/-! ### Unfolding lemmas for the tag loop -/

theorem getOrCreateTag_found {st : Store} {nm : String} {t : Tag}
    (h : st.tags.find? (fun u => u.name == nm) = some t) :
    getOrCreateTag st nm = (st, t) := by
  simp [getOrCreateTag, h]

theorem getOrCreateTag_new {st : Store} {nm : String}
    (h : st.tags.find? (fun u => u.name == nm) = none) :
    getOrCreateTag st nm =
      ({ st with tags := st.tags ++ [⟨st.nextTagPk, nm⟩],
                 nextTagPk := st.nextTagPk + 1 }, ⟨st.nextTagPk, nm⟩) := by
  simp [getOrCreateTag, h]

theorem processTagsAux_nil (st : Store) (acc : List Tag) (seen : List String) :
    processTagsAux st [] acc seen = Except.ok (st, acc) := rfl

theorem processTagsAux_noname {spec : TagSpec} (hn : spec.name = none)
    (st : Store) (rest : List TagSpec) (acc : List Tag) (seen : List String) :
    processTagsAux st (spec :: rest) acc seen = processTagsAux st rest acc seen := by
  obtain ⟨opk, onm⟩ := spec
  cases onm with
  | none => simp [processTagsAux]
  | some nm => simp at hn

theorem processTagsAux_seen {spec : TagSpec} {nm : String} {seen : List String}
    (hn : spec.name = some nm) (hs : nm ∈ seen)
    (st : Store) (rest : List TagSpec) (acc : List Tag) :
    processTagsAux st (spec :: rest) acc seen = processTagsAux st rest acc seen := by
  obtain ⟨opk, onm⟩ := spec
  simp only [TagSpec.mk.injEq] at hn
  subst hn
  simp [processTagsAux, hs]

theorem processTagsAux_pk_found {spec : TagSpec} {nm : String} {seen : List String}
    {p : Nat} {st : Store} {t : Tag}
    (hn : spec.name = some nm) (hs : nm ∉ seen) (hp : spec.livePk = some p)
    (hf : st.tags.find? (fun u => u.pk == p) = some t)
    (rest : List TagSpec) (acc : List Tag) :
    processTagsAux st (spec :: rest) acc seen =
      processTagsAux st rest (acc ++ [t]) (nm :: seen) := by
  obtain ⟨opk, onm⟩ := spec
  simp only [TagSpec.mk.injEq] at hn
  subst hn
  cases opk with
  | none => simp [TagSpec.livePk] at hp
  | some q =>
    simp only [TagSpec.livePk] at hp
    by_cases hq : q = 0
    · simp [hq] at hp
    · simp only [if_neg hq, Option.some.injEq] at hp
      subst hp
      simp [processTagsAux, hs, TagSpec.livePk, if_neg hq, hf]

theorem processTagsAux_pk_missing {spec : TagSpec} {nm : String} {seen : List String}
    {p : Nat} {st : Store}
    (hn : spec.name = some nm) (hs : nm ∉ seen) (hp : spec.livePk = some p)
    (hf : st.tags.find? (fun u => u.pk == p) = none)
    (rest : List TagSpec) (acc : List Tag) :
    processTagsAux st (spec :: rest) acc seen =
      Except.error (ReqError.validation "tag_set" (tagMissingMsg p)) := by
  obtain ⟨opk, onm⟩ := spec
  simp only [TagSpec.mk.injEq] at hn
  subst hn
  cases opk with
  | none => simp [TagSpec.livePk] at hp
  | some q =>
    simp only [TagSpec.livePk] at hp
    by_cases hq : q = 0
    · simp [hq] at hp
    · simp only [if_neg hq, Option.some.injEq] at hp
      subst hp
      simp [processTagsAux, hs, TagSpec.livePk, if_neg hq, hf]

theorem processTagsAux_nopk {spec : TagSpec} {nm : String} {seen : List String}
    (hn : spec.name = some nm) (hs : nm ∉ seen) (hp : spec.livePk = none)
    (st : Store) (rest : List TagSpec) (acc : List Tag) :
    processTagsAux st (spec :: rest) acc seen =
      processTagsAux (getOrCreateTag st nm).1 rest
        (acc ++ [(getOrCreateTag st nm).2]) (nm :: seen) := by
  obtain ⟨opk, onm⟩ := spec
  simp only [TagSpec.mk.injEq] at hn
  subst hn
  cases opk with
  | none => simp [processTagsAux, hs, TagSpec.livePk]
  | some q =>
    simp only [TagSpec.livePk] at hp
    by_cases hq : q = 0
    · simp [processTagsAux, hs, TagSpec.livePk, hq]
    · simp [if_neg hq] at hp

theorem processTagsAux_nopk_reuse {spec : TagSpec} {nm : String} {seen : List String}
    {st : Store} {t : Tag}
    (hn : spec.name = some nm) (hs : nm ∉ seen) (hp : spec.livePk = none)
    (hf : st.tags.find? (fun u => u.name == nm) = some t)
    (rest : List TagSpec) (acc : List Tag) :
    processTagsAux st (spec :: rest) acc seen =
      processTagsAux st rest (acc ++ [t]) (nm :: seen) := by
  rw [processTagsAux_nopk hn hs hp, getOrCreateTag_found hf]

theorem processTagsAux_nopk_new {spec : TagSpec} {nm : String} {seen : List String}
    {st : Store}
    (hn : spec.name = some nm) (hs : nm ∉ seen) (hp : spec.livePk = none)
    (hf : st.tags.find? (fun u => u.name == nm) = none)
    (rest : List TagSpec) (acc : List Tag) :
    processTagsAux st (spec :: rest) acc seen =
      processTagsAux
        { st with tags := st.tags ++ [⟨st.nextTagPk, nm⟩],
                  nextTagPk := st.nextTagPk + 1 }
        rest (acc ++ [⟨st.nextTagPk, nm⟩]) (nm :: seen) := by
  rw [processTagsAux_nopk hn hs hp, getOrCreateTag_new hf]

theorem processTagsAux_create {nm : String} {seen : List String} {st : Store}
    (hs : nm ∉ seen) (hf : st.tags.find? (fun u => u.name == nm) = none)
    (rest : List TagSpec) (acc : List Tag) :
    processTagsAux st ((⟨none, some nm⟩ : TagSpec) :: rest) acc seen =
      processTagsAux
        { st with tags := st.tags ++ [⟨st.nextTagPk, nm⟩],
                  nextTagPk := st.nextTagPk + 1 }
        rest (acc ++ [⟨st.nextTagPk, nm⟩]) (nm :: seen) :=
  @processTagsAux_nopk_new ⟨none, some nm⟩ nm seen st rfl hs rfl hf rest acc

theorem processTagsAux_skip {nm : String} {seen : List String}
    (hs : nm ∈ seen) (opk : Option Nat) (st : Store) (rest : List TagSpec)
    (acc : List Tag) :
    processTagsAux st ((⟨opk, some nm⟩ : TagSpec) :: rest) acc seen =
      processTagsAux st rest acc seen :=
  processTagsAux_seen rfl hs st rest acc

/-! ### Invariants of a successful tag-loop run -/

/-- Frame and growth facts about `processTagsAux`: a successful run leaves
every table except the tag table untouched, only appends tag rows (with
pks at or above the incoming counter), only appends to the accumulator
(with appended tags drawn from the final tag table), and preserves
well-formedness of the tag table. -/
theorem processTagsAux_ok_inv :
    ∀ (specs : List TagSpec) {st st' : Store} {acc res : List Tag}
      {seen : List String},
    processTagsAux st specs acc seen = Except.ok (st', res) →
    st'.products = st.products ∧ st'.options = st.options ∧
    st'.assoc = st.assoc ∧ st'.nextProductPk = st.nextProductPk ∧
    st'.nextOptionPk = st.nextOptionPk ∧ st.nextTagPk ≤ st'.nextTagPk ∧
    (∃ ext, st'.tags = st.tags ++ ext ∧
      ∀ u ∈ ext, st.nextTagPk ≤ u.pk ∧ u.pk < st'.nextTagPk) ∧
    (∃ rext, res = acc ++ rext ∧ ∀ u ∈ rext, u ∈ st'.tags) ∧
    ((∀ u ∈ st.tags, u.pk < st.nextTagPk) → (st.tags.map Tag.pk).Nodup →
      (st'.tags.map Tag.pk).Nodup) := by
  intro specs
  induction specs with
  | nil =>
    intro st st' acc res seen h
    rw [processTagsAux_nil] at h
    injection h with h
    injection h with h1 h2
    subst h1; subst h2
    refine ⟨rfl, rfl, rfl, rfl, rfl, le_refl _, ⟨[], by simp⟩, ⟨[], by simp⟩,
      fun _ hnd => hnd⟩
  | cons spec rest ih =>
    intro st st' acc res seen h
    rcases hn : spec.name with _ | nm
    · rw [processTagsAux_noname hn] at h
      exact ih h
    · by_cases hs : nm ∈ seen
      · rw [processTagsAux_seen hn hs] at h
        exact ih h
      · rcases hp : spec.livePk with _ | p
        · rcases hf : st.tags.find? (fun u => u.name == nm) with _ | t
          · -- a fresh tag row is created
            rw [processTagsAux_nopk_new hn hs hp hf] at h
            obtain ⟨h1, h2, h3, h4, h5, h6, ⟨ext, hext, hbd⟩, ⟨rext, hrext, hrmem⟩,
              hnd⟩ := ih h
            refine ⟨h1, h2, h3, h4, h5, le_trans (Nat.le_succ _) h6,
              ⟨⟨st.nextTagPk, nm⟩ :: ext, by simpa using hext, ?_⟩,
              ⟨⟨st.nextTagPk, nm⟩ :: rext, by simpa using hrext, ?_⟩, ?_⟩
            · intro u hu
              rcases List.mem_cons.mp hu with h' | h'
              · subst h'
                exact ⟨le_refl _, lt_of_lt_of_le (Nat.lt_succ_self _) h6⟩
              · obtain ⟨hb1, hb2⟩ := hbd u h'
                exact ⟨le_trans (Nat.le_succ _) hb1, hb2⟩
            · intro u hu
              rcases List.mem_cons.mp hu with h' | h'
              · subst h'
                rw [hext]
                simp
              · exact hrmem u h'
            · intro hlt hnodup
              apply hnd
              · intro u hu
                rcases List.mem_append.mp hu with h' | h'
                · exact lt_trans (hlt u h') (Nat.lt_succ_self _)
                · simp at h'
                  subst h'
                  exact Nat.lt_succ_self _
              · simp only [List.map_append, List.map_cons, List.map_nil]
                rw [List.nodup_append]
                refine ⟨hnodup, List.nodup_singleton _, ?_⟩
                intro a ha hb
                simp at hb
                subst hb
                rcases List.mem_map.mp ha with ⟨u, hu, hupk⟩
                exact absurd hupk (Nat.ne_of_lt (hlt u hu))
          · -- an existing tag row with this name is reused
            rw [processTagsAux_nopk_reuse hn hs hp hf] at h
            obtain ⟨h1, h2, h3, h4, h5, h6, ⟨ext, hext, hbd⟩, ⟨rext, hrext, hrmem⟩,
              hnd⟩ := ih h
            refine ⟨h1, h2, h3, h4, h5, h6, ⟨ext, hext, hbd⟩,
              ⟨t :: rext, by simpa using hrext, ?_⟩, hnd⟩
            intro u hu
            rcases List.mem_cons.mp hu with h' | h'
            · subst h'
              rw [hext]
              exact List.mem_append_left _ (List.mem_of_find?_eq_some hf)
            · exact hrmem u h'
        · rcases hf : st.tags.find? (fun u => u.pk == p) with _ | t
          · rw [processTagsAux_pk_missing hn hs hp hf] at h
            exact absurd h (by simp)
          · rw [processTagsAux_pk_found hn hs hp hf] at h
            obtain ⟨h1, h2, h3, h4, h5, h6, ⟨ext, hext, hbd⟩, ⟨rext, hrext, hrmem⟩,
              hnd⟩ := ih h
            refine ⟨h1, h2, h3, h4, h5, h6, ⟨ext, hext, hbd⟩,
              ⟨t :: rext, by simpa using hrext, ?_⟩, hnd⟩
            intro u hu
            rcases List.mem_cons.mp hu with h' | h'
            · subst h'
              rw [hext]
              exact List.mem_append_left _ (List.mem_of_find?_eq_some hf)
            · exact hrmem u h'

/-- Pks determine tag rows in a table with duplicate-free pks. -/
theorem tag_pk_inj {l : List Tag} (hnd : (l.map Tag.pk).Nodup) {a b : Tag}
    (ha : a ∈ l) (hb : b ∈ l) (hpk : a.pk = b.pk) : a = b := by
  induction l with
  | nil => cases ha
  | cons x l ih =>
    simp only [List.map_cons, List.nodup_cons] at hnd
    rcases List.mem_cons.mp ha with ha' | ha' <;>
      rcases List.mem_cons.mp hb with hb' | hb'
    · rw [ha', hb']
    · subst ha'
      exact absurd (hpk ▸ List.mem_map_of_mem Tag.pk hb') hnd.1
    · subst hb'
      exact absurd (hpk ▸ List.mem_map_of_mem Tag.pk ha') hnd.1
    · exact ih hnd.2 ha' hb'

/-- A spec whose name already occurred earlier in the submitted list (or
was already seen) is dropped: the loop computes the same result without
it. -/
theorem processTagsAux_dedup {s : TagSpec} {nm : String}
    (hn : s.name = some nm) :
    ∀ (pre : List TagSpec) {st : Store} (post : List TagSpec)
      (acc : List Tag) (seen : List String),
    (nm ∈ seen ∨ ∃ s' ∈ pre, s'.name = some nm) →
    processTagsAux st (pre ++ s :: post) acc seen =
      processTagsAux st (pre ++ post) acc seen := by
  intro pre
  induction pre with
  | nil =>
    intro st post acc seen hinv
    rcases hinv with hseen | ⟨s', hs', _⟩
    · rw [List.nil_append, List.nil_append, processTagsAux_seen hn hseen]
    · cases hs'
  | cons a pre ih =>
    intro st post acc seen hinv
    have step : ∀ (seen' : List String),
        (nm ∈ seen' ∨ ∃ s' ∈ pre, s'.name = some nm) → ∀ (st' : Store)
        (acc' : List Tag),
        processTagsAux st' (pre ++ s :: post) acc' seen' =
          processTagsAux st' (pre ++ post) acc' seen' :=
      fun seen' hinv' st' acc' => ih post acc' seen' hinv'
    rw [List.cons_append, List.cons_append]
    rcases hn' : a.name with _ | nm'
    · have hinv' : nm ∈ seen ∨ ∃ s' ∈ pre, s'.name = some nm := by
        rcases hinv with h' | ⟨s', hs', hs'n⟩
        · exact Or.inl h'
        · rcases List.mem_cons.mp hs' with he | hm
          · subst he
            rw [hn'] at hs'n
            cases hs'n
          · exact Or.inr ⟨s', hm, hs'n⟩
      rw [processTagsAux_noname hn', processTagsAux_noname hn']
      exact step seen hinv' st acc
    · have hinvs : ∀ pr : nm' = nm → False,
          nm ∈ seen ∨ ∃ s' ∈ pre, s'.name = some nm := by
        intro hne
        rcases hinv with h' | ⟨s', hs', hs'n⟩
        · exact Or.inl h'
        · rcases List.mem_cons.mp hs' with he | hm
          · subst he
            rw [hn'] at hs'n
            injection hs'n with hs'n
            exact absurd hs'n hne
          · exact Or.inr ⟨s', hm, hs'n⟩
      have hinvc : nm ∈ nm' :: seen ∨ ∃ s' ∈ pre, s'.name = some nm := by
        rcases hinv with h' | ⟨s', hs', hs'n⟩
        · exact Or.inl (List.mem_cons_of_mem _ h')
        · rcases List.mem_cons.mp hs' with he | hm
          · subst he
            rw [hn'] at hs'n
            injection hs'n with hs'n
            exact Or.inl (hs'n ▸ List.mem_cons_self _ _)
          · exact Or.inr ⟨s', hm, hs'n⟩
      by_cases hs' : nm' ∈ seen
      · rw [processTagsAux_seen hn' hs', processTagsAux_seen hn' hs']
        rcases hinv with h' | ⟨s', hs'', hs'n⟩
        · exact step seen (Or.inl h') st acc
        · rcases List.mem_cons.mp hs'' with he | hm
          · subst he
            rw [hn'] at hs'n
            injection hs'n with hs'n
            exact step seen (Or.inl (hs'n ▸ hs')) st acc
          · exact step seen (Or.inr ⟨s', hm, hs'n⟩) st acc
      · rcases hp' : a.livePk with _ | p'
        · rcases hf : st.tags.find? (fun u => u.name == nm') with _ | u
          · rw [processTagsAux_nopk_new hn' hs' hp' hf,
              processTagsAux_nopk_new hn' hs' hp' hf]
            exact step (nm' :: seen) hinvc _ _
          · rw [processTagsAux_nopk_reuse hn' hs' hp' hf,
              processTagsAux_nopk_reuse hn' hs' hp' hf]
            exact step (nm' :: seen) hinvc _ _
        · rcases hf : st.tags.find? (fun u => u.pk == p') with _ | u
          · rw [processTagsAux_pk_missing hn' hs' hp' hf,
              processTagsAux_pk_missing hn' hs' hp' hf]
          · rw [processTagsAux_pk_found hn' hs' hp' hf,
              processTagsAux_pk_found hn' hs' hp' hf]
            exact step (nm' :: seen) hinvc _ _

/-! ### Concrete stores used by witnesses and counterexamples -/

/-- A small well-formed store: one tag `⟨1, "T"⟩`, one product `⟨1, "P"⟩`. -/
def sampleStore : Store := ⟨[⟨1, "T"⟩], [⟨1, "P"⟩], [], [], 2, 2, 1⟩

/-- A store whose product 1 owns two options and is associated with
tag 1. -/
def sampleStore2 : Store :=
  ⟨[⟨1, "T"⟩], [⟨1, "P"⟩], [⟨1, 1, "O1", 100⟩, ⟨2, 1, "O2", 200⟩],
    [(1, 1)], 2, 2, 3⟩

/-! ### Claim theorems: tag reconciliation -/

/-- C1: evaluation of the code at the claim's failing input — the
repository's own test request (`tests.py`,
`test_create_product_with_invalid_existing_tag_pk`). In `sampleStore` no
tag has pk 99999, yet the create succeeds: the read-only pk is stripped
by input validation before `_process_tags` runs, so its pk branch — the
only source of the claimed `tag_set` error — is unreachable, and the spec
is resolved by its name via get-or-create, committing a fresh Tag row.
The claim (and the repository's test, which expects a 400/404 here) is
right and the code is wrong. -/
theorem C1_dangling_pk_error_unreachable :
    sampleStore.tags.all (fun t => t.pk != 99999) = true ∧
    createProduct sampleStore
        ⟨"InvalidTagProduct", some [⟨none, "Option1", 1000⟩],
          some [⟨some 99999, some "NonExistentTag"⟩]⟩ =
      Except.ok
        (⟨[⟨1, "T"⟩, ⟨2, "NonExistentTag"⟩],
          [⟨1, "P"⟩, ⟨2, "InvalidTagProduct"⟩],
          [⟨1, 2, "Option1", 1000⟩], [(2, 2)], 3, 3, 2⟩, 2) := by
  decide

/-- C5: within one request tag specs are deduplicated by name — a spec
whose name already occurred earlier in the list is silently dropped, the
whole reconciliation computing exactly what it computes without that
spec; and two specs submitting the same new name create exactly one new
Tag row. -/
theorem C5_within_request_name_dedup :
    (∀ (st : Store) (pid : Nat) (pre post : List TagSpec) (s : TagSpec)
      (nm : String),
      s.name = some nm → (∃ s' ∈ pre, s'.name = some nm) →
      processTags st pid (pre ++ s :: post) = processTags st pid (pre ++ post)) ∧
    (∀ (st : Store) (pid : Nat) (nm : String) (s2 : TagSpec),
      s2.name = some nm → (∀ t ∈ st.tags, t.name ≠ nm) →
      ∃ st', processTags st pid [⟨none, some nm⟩, s2] = Except.ok st' ∧
        st'.tags = st.tags ++ [⟨st.nextTagPk, nm⟩]) := by
  constructor
  · intro st pid pre post s nm hn hex
    simp only [processTags]
    rw [processTagsAux_dedup hn pre post [] [] (Or.inr hex)]
  · intro st pid nm s2 hn hfresh
    have hf : st.tags.find? (fun u => u.name == nm) = none := by
      rw [List.find?_eq_none]
      intro t ht
      simpa using hfresh t ht
    have haux : processTagsAux st [⟨none, some nm⟩, s2] [] [] =
        Except.ok ({ st with tags := st.tags ++ [⟨st.nextTagPk, nm⟩],
                             nextTagPk := st.nextTagPk + 1 },
                   [⟨st.nextTagPk, nm⟩]) := by
      rw [show ([⟨none, some nm⟩, s2] : List TagSpec)
            = (⟨none, some nm⟩ : TagSpec) :: [s2] from rfl]
      rw [processTagsAux_create (List.not_mem_nil nm) hf]
      rw [processTagsAux_seen hn (List.mem_cons_self nm [])]
      rw [processTagsAux_nil]
      simp
    refine ⟨setProductTags
      { st with tags := st.tags ++ [⟨st.nextTagPk, nm⟩],
                nextTagPk := st.nextTagPk + 1 } pid [⟨st.nextTagPk, nm⟩],
      ?_, rfl⟩
    simp only [processTags, haux]

/-- C5 witness: submitting `[{name: "N"}, {name: "N"}]` to `sampleStore`
creates exactly the single new row `⟨2, "N"⟩`. -/
theorem C5_witness :
    ∃ st', processTags sampleStore 1 [⟨none, some "N"⟩, ⟨none, some "N"⟩] =
        Except.ok st' ∧
      st'.tags = sampleStore.tags ++ [⟨sampleStore.nextTagPk, "N"⟩] :=
  C5_within_request_name_dedup.2 sampleStore 1 "N" ⟨none, some "N"⟩ rfl
    (by decide)

/-- C10 counterexample: submitting `[{name: "X"}, {name: " X "}]` — two
names differing only in surrounding whitespace — in a PATCH of product 1
creates exactly ONE new Tag row, stored as the trimmed `"X"`: input
validation trims tag names exactly as it trims option names, so the
claim's "both processed", "two distinct Tag rows" and "retains its
surrounding whitespace" are all false of the program. -/
theorem C10_counterexample :
    updateProduct sampleStore 1
        ⟨none, none, some [⟨none, some "X"⟩, ⟨none, some " X "⟩]⟩ =
      Except.ok
        ⟨[⟨1, "T"⟩, ⟨2, "X"⟩], [⟨1, "P"⟩], [], [(1, 2)], 3, 2, 1⟩ := by
  decide

/-- C10 (amended): tag names are trimmed by input validation exactly like
option names, and are then deduplicated and stored by exact equality of
the trimmed names: two specs whose submitted names strip to the same
fresh string collapse — whatever pks they carry, the second is
dedup-dropped — and exactly one new Tag row is created, storing the
stripped name, so no stored tag name retains surrounding whitespace. -/
theorem C10_tag_names_trimmed_like_options :
    ∀ (st : Store) (pid : Nat) (opk1 opk2 : Option Nat) (nm1 nm2 : String),
      (st.products.any (fun pr => pr.pk == pid)) = true →
      pyStrip nm1 = pyStrip nm2 →
      (∀ t ∈ st.tags, t.name ≠ pyStrip nm1) →
      ∃ st', updateProduct st pid
          ⟨none, none, some [⟨opk1, some nm1⟩, ⟨opk2, some nm2⟩]⟩ =
          Except.ok st' ∧
        st'.tags = st.tags ++ [⟨st.nextTagPk, pyStrip nm1⟩] := by
  intro st pid opk1 opk2 nm1 nm2 hex h12 hfresh
  have hvt : validateTags [⟨opk1, some nm1⟩, ⟨opk2, some nm2⟩] =
      [⟨none, some (pyStrip nm1)⟩, ⟨none, some (pyStrip nm1)⟩] := by
    simp [validateTags, validateTagSpec, ← h12]
  have hf : st.tags.find? (fun u => u.name == pyStrip nm1) = none := by
    rw [List.find?_eq_none]
    intro t ht
    simpa using hfresh t ht
  have haux : processTagsAux st
      [⟨none, some (pyStrip nm1)⟩, ⟨none, some (pyStrip nm1)⟩] [] [] =
      Except.ok ({ st with tags := st.tags ++ [⟨st.nextTagPk, pyStrip nm1⟩],
                           nextTagPk := st.nextTagPk + 1 },
        [⟨st.nextTagPk, pyStrip nm1⟩]) := by
    rw [show ([⟨none, some (pyStrip nm1)⟩, ⟨none, some (pyStrip nm1)⟩] :
          List TagSpec)
          = (⟨none, some (pyStrip nm1)⟩ : TagSpec) ::
            [⟨none, some (pyStrip nm1)⟩] from rfl]
    rw [processTagsAux_create (List.not_mem_nil _) hf]
    rw [processTagsAux_skip (List.mem_cons_self _ _) _]
    rw [processTagsAux_nil]
    simp
  refine ⟨setProductTags
    { st with tags := st.tags ++ [⟨st.nextTagPk, pyStrip nm1⟩],
              nextTagPk := st.nextTagPk + 1 } pid
    [⟨st.nextTagPk, pyStrip nm1⟩], ?_, rfl⟩
  simp only [updateProduct, if_pos hex]
  show processTags st pid
      (validateTags [⟨opk1, some nm1⟩, ⟨opk2, some nm2⟩]) = _
  rw [hvt]
  simp only [processTags, haux]

/-! ### Option validation and reconciliation lemmas -/

theorem validate_name_error {v : String} (h : pyStrip v = "") :
    validate_name v = Except.error optionNameMsg := by
  simp [validate_name, h]

theorem validate_name_ok {v : String} (h : pyStrip v ≠ "") :
    validate_name v = Except.ok (pyStrip v) := by
  have hv : v ≠ "" := by
    intro he
    apply h
    rw [he]
    decide
  simp [validate_name, hv, h]

theorem validateOptions_error :
    ∀ (specs : List OptionSpec), (∃ o ∈ specs, pyStrip o.name = "") →
    validateOptions specs =
      Except.error (ReqError.validation "option_set" optionNameMsg) := by
  intro specs
  induction specs with
  | nil =>
    rintro ⟨o, ho, -⟩
    cases ho
  | cons a rest ih =>
    rintro ⟨o, ho, htrim⟩
    by_cases ha : pyStrip a.name = ""
    · simp [validateOptions, validate_name_error ha]
    · have ho' : o ∈ rest := by
        rcases List.mem_cons.mp ho with he | hm
        · subst he
          exact absurd htrim ha
        · exact hm
      simp [validateOptions, validate_name_ok ha, ih ⟨o, ho', htrim⟩]

theorem validateOptions_ok_shape :
    ∀ {specs l : List OptionSpec}, validateOptions specs = Except.ok l →
    l = specs.map (fun o => { o with name := pyStrip o.name }) := by
  intro specs
  induction specs with
  | nil =>
    intro l h
    simp only [validateOptions] at h
    injection h with h
    exact h.symm
  | cons a rest ih =>
    intro l h
    simp only [validateOptions] at h
    by_cases ha : pyStrip a.name = ""
    · rw [validate_name_error ha] at h
      cases h
    · rw [validate_name_ok ha] at h
      rcases hr : validateOptions rest with e | rest'
      · rw [hr] at h
        cases h
      · rw [hr] at h
        injection h with h
        rw [← h, ih hr]
        rfl

theorem mkCreated_mem {pid : Nat} :
    ∀ (l : List OptionSpec) (base : Nat) {o : ProductOption},
    o ∈ mkCreated pid base l →
    o.productPk = pid ∧ base ≤ o.pk ∧
      ∃ s ∈ l, o.name = s.name ∧ o.price = s.price := by
  intro l
  induction l with
  | nil =>
    intro base o h
    cases h
  | cons s rest ih =>
    intro base o h
    rcases List.mem_cons.mp h with h' | h'
    · subst h'
      exact ⟨rfl, le_refl _, s, List.mem_cons_self s rest, rfl, rfl⟩
    · obtain ⟨h1, h2, s', hs', h3, h4⟩ := ih (base + 1) h'
      exact ⟨h1, le_trans (Nat.le_succ _) h2, s',
        List.mem_cons_of_mem s hs', h3, h4⟩

theorem mkCreated_mem_of_spec {pid : Nat} :
    ∀ (l : List OptionSpec) (base : Nat) {s : OptionSpec}, s ∈ l →
    ∃ k, base ≤ k ∧
      ProductOption.mk k pid s.name s.price ∈ mkCreated pid base l := by
  intro l
  induction l with
  | nil =>
    intro base s h
    cases h
  | cons a rest ih =>
    intro base s h
    rcases List.mem_cons.mp h with h' | h'
    · subst h'
      exact ⟨base, le_refl _, List.mem_cons_self _ _⟩
    · obtain ⟨k, hk, hmem⟩ := ih (base + 1) h'
      exact ⟨k, le_trans (Nat.le_succ _) hk, List.mem_cons_of_mem _ hmem⟩

theorem mkCreated_map_name {pid : Nat} :
    ∀ (l : List OptionSpec) (base : Nat),
    (mkCreated pid base l).map ProductOption.name = l.map OptionSpec.name := by
  intro l
  induction l with
  | nil =>
    intro base
    rfl
  | cons a rest ih =>
    intro base
    simp [mkCreated, ih (base + 1)]

theorem list_map_self {α : Type} {f : α → α} {l : List α}
    (h : ∀ a ∈ l, f a = a) : l.map f = l :=
  (List.map_congr_left h).trans (List.map_id l)

theorem applyOptionDiff_frame (st : Store) (pid : Nat)
    (specs : List OptionSpec) :
    (applyOptionDiff st pid specs).tags = st.tags ∧
    (applyOptionDiff st pid specs).products = st.products ∧
    (applyOptionDiff st pid specs).assoc = st.assoc ∧
    (applyOptionDiff st pid specs).nextTagPk = st.nextTagPk ∧
    (applyOptionDiff st pid specs).nextProductPk = st.nextProductPk :=
  ⟨rfl, rfl, rfl, rfl, rfl⟩

/-- For a product owning no options yet (in particular a fresh one),
the diff reduces to creating one option per spec, in order. -/
theorem applyOptionDiff_fresh {st : Store} {pid : Nat} (specs : List OptionSpec)
    (hfresh : ∀ o ∈ st.options, o.productPk ≠ pid) :
    (applyOptionDiff st pid specs).options =
      st.options ++ mkCreated pid st.nextOptionPk specs := by
  have howned : st.options.filter (fun o => o.productPk == pid) = [] :=
    List.filter_eq_nil_iff.mpr (fun o ho => by simpa using hfresh o ho)
  have hkept : st.options.filter
      (fun o => o.productPk != pid ||
        (specs.filterMap OptionSpec.pk).contains o.pk) = st.options :=
    List.filter_eq_self.mpr (fun o ho => by simp [hfresh o ho])
  have hupd : (st.options.map (fun o =>
      if o.productPk == pid then
        match specs.find? (fun s => s.pk == some o.pk) with
        | some s => { o with name := s.name, price := s.price }
        | none => o
      else o)) = st.options :=
    list_map_self (fun o ho => by simp [hfresh o ho])
  have hnew : specs.filter (fun s => !(isOptionUpdate
      ((st.options.filter (fun o => o.productPk == pid)).map
        ProductOption.pk) s)) = specs := by
    rw [howned]
    exact List.filter_eq_self.mpr (fun s _ => by
      cases hp : s.pk <;> simp [isOptionUpdate, hp])
  simp only [applyOptionDiff]
  rw [hkept, hupd, hnew]

theorem processTags_ok_frame {st st' : Store} {pid : Nat}
    {specs : List TagSpec} (h : processTags st pid specs = Except.ok st') :
    st'.options = st.options ∧ st'.products = st.products ∧
    st'.nextOptionPk = st.nextOptionPk ∧
    st'.nextProductPk = st.nextProductPk := by
  simp only [processTags] at h
  rcases haux : processTagsAux st specs [] [] with e | r
  · rw [haux] at h
    cases h
  · rw [haux] at h
    obtain ⟨st1, res⟩ := r
    injection h with h
    subst h
    obtain ⟨h1, h2, _, h4, h5, _⟩ := processTagsAux_ok_inv _ haux
    exact ⟨h2, h1, h5, h4⟩

/-- Inversion of a successful update: the optional option list validated,
and the tag branch ran on the store produced by the scalar update and the
optional option diff. -/
theorem updateProduct_ok_inv {st st' : Store} {pid : Nat} {inp : ProductPatch}
    (h : updateProduct st pid inp = Except.ok st') :
    ∃ vopts, validateOptions? inp.option_set = Except.ok vopts ∧
      processTags? (applyOptionDiff? (updateName st pid inp.name) pid vopts)
        pid (inp.tag_set.map validateTags) = Except.ok st' := by
  by_cases hex : (st.products.any (fun pr => pr.pk == pid)) = true
  · simp only [updateProduct, if_pos hex] at h
    rcases hvo : validateOptions? inp.option_set with e | vopts <;>
      rw [hvo] at h
    · cases h
    · exact ⟨vopts, rfl, h⟩
  · simp only [updateProduct, if_neg hex] at h
    cases h

/-- The scalar update touches only the product table. -/
theorem updateName_frame (st : Store) (pid : Nat) (onm : Option String) :
    (updateName st pid onm).tags = st.tags ∧
    (updateName st pid onm).options = st.options ∧
    (updateName st pid onm).assoc = st.assoc ∧
    (updateName st pid onm).nextTagPk = st.nextTagPk ∧
    (updateName st pid onm).nextOptionPk = st.nextOptionPk := by
  cases onm <;> exact ⟨rfl, rfl, rfl, rfl, rfl⟩

/-- The optional option diff touches only the option table and its
counter. -/
theorem applyOptionDiff?_frame (st : Store) (pid : Nat)
    (vopts : Option (List OptionSpec)) :
    (applyOptionDiff? st pid vopts).tags = st.tags ∧
    (applyOptionDiff? st pid vopts).products = st.products ∧
    (applyOptionDiff? st pid vopts).assoc = st.assoc ∧
    (applyOptionDiff? st pid vopts).nextTagPk = st.nextTagPk := by
  cases vopts <;> exact ⟨rfl, rfl, rfl, rfl⟩

/-- An omitted option diff leaves the store untouched. -/
theorem applyOptionDiff?_none (st : Store) (pid : Nat) :
    applyOptionDiff? st pid none = st := rfl

/-- The optional tag branch never touches options or products. -/
theorem processTags?_ok_frame {st st' : Store} {pid : Nat}
    {ts? : Option (List TagSpec)}
    (h : processTags? st pid ts? = Except.ok st') :
    st'.options = st.options ∧ st'.products = st.products ∧
    st'.nextOptionPk = st.nextOptionPk ∧
    st'.nextProductPk = st.nextProductPk := by
  cases ts? with
  | none =>
    injection h with h
    subst h
    exact ⟨rfl, rfl, rfl, rfl⟩
  | some ts => exact processTags_ok_frame h

/-- A successful `_process_tags` run only appends tag rows: every
pre-existing row survives and remains the unique row with its pk. -/
theorem processTags_preserves_rows {st st' : Store} {pid : Nat}
    {specs : List TagSpec}
    (hlt : ∀ t ∈ st.tags, t.pk < st.nextTagPk)
    (hnd : (st.tags.map Tag.pk).Nodup)
    (h : processTags st pid specs = Except.ok st') :
    ∀ t ∈ st.tags, t ∈ st'.tags ∧ ∀ u ∈ st'.tags, u.pk = t.pk → u = t := by
  simp only [processTags] at h
  rcases haux : processTagsAux st specs [] [] with e | r
  · rw [haux] at h
    cases h
  · rw [haux] at h
    obtain ⟨st1, res⟩ := r
    injection h with h
    subst h
    obtain ⟨-, -, -, -, -, -, ⟨ext, hext, -⟩, -, hndp⟩ :=
      processTagsAux_ok_inv _ haux
    intro t ht
    have htags : (setProductTags st1 pid res).tags = st1.tags := rfl
    constructor
    · rw [htags, hext]
      exact List.mem_append_left _ ht
    · intro u hu hupk
      rw [htags] at hu
      exact tag_pk_inj (hndp hlt hnd) hu
        (by rw [hext]; exact List.mem_append_left _ ht) hupk

/-- When no spec carries a live pk — as is the case for validated request
data, whose read-only pks are stripped — every tag the loop accumulates
beyond its incoming accumulator bears the name of some spec. -/
theorem processTagsAux_res_names :
    ∀ (specs : List TagSpec) {st st' : Store} {acc res : List Tag}
      {seen : List String},
    (∀ s ∈ specs, s.livePk = none) →
    processTagsAux st specs acc seen = Except.ok (st', res) →
    ∀ u ∈ res, u ∈ acc ∨ ∃ s ∈ specs, s.name = some u.name := by
  intro specs
  induction specs with
  | nil =>
    intro st st' acc res seen _ h u hu
    rw [processTagsAux_nil] at h
    injection h with h
    injection h with h1 h2
    subst h2
    exact Or.inl hu
  | cons spec rest ih =>
    intro st st' acc res seen hpk h u hu
    have hpkh : spec.livePk = none := hpk spec (List.mem_cons_self _ _)
    have hpkr : ∀ s ∈ rest, s.livePk = none :=
      fun s hs => hpk s (List.mem_cons_of_mem _ hs)
    rcases hn : spec.name with _ | nm
    · rw [processTagsAux_noname hn] at h
      rcases ih hpkr h u hu with h' | ⟨s, hs, hsn⟩
      · exact Or.inl h'
      · exact Or.inr ⟨s, List.mem_cons_of_mem _ hs, hsn⟩
    · by_cases hs' : nm ∈ seen
      · rw [processTagsAux_seen hn hs'] at h
        rcases ih hpkr h u hu with h' | ⟨s, hs, hsn⟩
        · exact Or.inl h'
        · exact Or.inr ⟨s, List.mem_cons_of_mem _ hs, hsn⟩
      · rcases hf : st.tags.find? (fun t => t.name == nm) with _ | t
        · rw [processTagsAux_nopk_new hn hs' hpkh hf] at h
          rcases ih hpkr h u hu with h' | ⟨s, hs, hsn⟩
          · rcases List.mem_append.mp h' with h'' | h''
            · exact Or.inl h''
            · simp at h''
              subst h''
              exact Or.inr ⟨spec, List.mem_cons_self _ _, hn⟩
          · exact Or.inr ⟨s, List.mem_cons_of_mem _ hs, hsn⟩
        · rw [processTagsAux_nopk_reuse hn hs' hpkh hf] at h
          rcases ih hpkr h u hu with h' | ⟨s, hs, hsn⟩
          · rcases List.mem_append.mp h' with h'' | h''
            · exact Or.inl h''
            · simp at h''
              have htn : t.name = nm := by simpa using List.find?_some hf
              exact Or.inr ⟨spec, List.mem_cons_self _ _,
                by rw [h'', hn, htn]⟩
          · exact Or.inr ⟨s, List.mem_cons_of_mem _ hs, hsn⟩

/-- Under validated input (no live pks), every tag pk newly associated to
the product by `_process_tags` belongs to a row of the final store whose
name is one of the submitted names. -/
theorem processTags_resolved_names {st st' : Store} {pid : Nat}
    {specs : List TagSpec}
    (hpk : ∀ s ∈ specs, s.livePk = none)
    (h : processTags st pid specs = Except.ok st') :
    ∀ k, (pid, k) ∈ st'.assoc →
      ∃ u ∈ st'.tags, u.pk = k ∧ ∃ s ∈ specs, s.name = some u.name := by
  simp only [processTags] at h
  rcases haux : processTagsAux st specs [] [] with e | r
  · rw [haux] at h
    cases h
  · rw [haux] at h
    obtain ⟨st1, res⟩ := r
    injection h with h
    subst h
    intro k hk
    rcases List.mem_append.mp hk with hm | hm
    · have := (List.mem_filter.mp hm).2
      simp at this
    · rcases List.mem_map.mp hm with ⟨k', hk', hpair⟩
      injection hpair with h1 h2
      subst h2
      have hk'' : k' ∈ res.map Tag.pk := List.mem_dedup.mp hk'
      rcases List.mem_map.mp hk'' with ⟨u, hu, hupk⟩
      obtain ⟨-, -, -, -, -, -, -, ⟨rext, hrext, hrmem⟩, -⟩ :=
        processTagsAux_ok_inv _ haux
      have humem : u ∈ (setProductTags st1 pid res).tags := by
        have hur : u ∈ rext := by
          rw [hrext] at hu
          simpa using hu
        exact hrmem u hur
      rcases processTagsAux_res_names _ hpk haux u hu with h' | ⟨s, hs, hsn⟩
      · cases h'
      · exact ⟨u, humem, hupk, s, hs, hsn⟩

/-- Every entry of a validated tag list lacks a live pk. -/
theorem validateTags_no_livePk (specs : List TagSpec) :
    ∀ s ∈ validateTags specs, s.livePk = none := by
  intro s hs
  rcases List.mem_map.mp hs with ⟨s0, -, he⟩
  rw [← he]
  rfl

/-- C9 counterexample: in `sampleStore` tag 1 is stored as `"T"`.
PATCHing product 1 with the single spec `{pk: 1, name: "Other"}` does not
associate tag 1: the read-only pk is stripped by input validation and a
fresh tag `"Other"` is created and associated instead — refuting the
claim's "that Tag is associated with the product" and "the submitted name
is used only for within-request deduplication". -/
theorem C9_counterexample :
    updateProduct sampleStore 1 ⟨none, none, some [⟨some 1, some "Other"⟩]⟩ =
      Except.ok
        ⟨[⟨1, "T"⟩, ⟨2, "Other"⟩], [⟨1, "P"⟩], [], [(1, 2)], 3, 2, 1⟩ ∧
    ([(1, 2)] : List (Nat × Nat)).all (fun a => a != (1, 1)) = true := by
  decide

/-- C9 (amended): tag reconciliation never modifies an existing Tag row —
every pre-existing row survives a successful PATCH verbatim and remains
the unique row with its pk (so in particular a pk-matched Tag keeps its
stored name whatever name the spec submits) — but the spec's read-only pk
is discarded by input validation, so the pk-matched Tag is not associated
unless some submitted name trims to its stored name: the trimmed
submitted name alone drives both deduplication and resolution. -/
theorem C9_tag_rows_immutable_pk_ignored :
    (∀ (st st' : Store) (pid : Nat) (inp : ProductPatch),
      (∀ t ∈ st.tags, t.pk < st.nextTagPk) → (st.tags.map Tag.pk).Nodup →
      updateProduct st pid inp = Except.ok st' →
      ∀ t ∈ st.tags, t ∈ st'.tags ∧ ∀ u ∈ st'.tags, u.pk = t.pk → u = t) ∧
    (∀ (st st' : Store) (pid : Nat) (inp : ProductPatch)
      (specs : List TagSpec) (t : Tag),
      (∀ u ∈ st.tags, u.pk < st.nextTagPk) → (st.tags.map Tag.pk).Nodup →
      inp.tag_set = some specs →
      updateProduct st pid inp = Except.ok st' →
      t ∈ st.tags → (∀ s ∈ specs, s.name.map pyStrip ≠ some t.name) →
      (pid, t.pk) ∉ st'.assoc) := by
  constructor
  · intro st st' pid inp hlt hnd h
    obtain ⟨vopts, -, hrun⟩ := updateProduct_ok_inv h
    have hframe := applyOptionDiff?_frame (updateName st pid inp.name) pid vopts
    have hnframe := updateName_frame st pid inp.name
    have htags2 : (applyOptionDiff? (updateName st pid inp.name)
        pid vopts).tags = st.tags := hframe.1.trans hnframe.1
    have hnext2 : (applyOptionDiff? (updateName st pid inp.name)
        pid vopts).nextTagPk = st.nextTagPk :=
      hframe.2.2.2.trans hnframe.2.2.2.1
    have hlt2 : ∀ t ∈ (applyOptionDiff? (updateName st pid inp.name)
        pid vopts).tags, t.pk < (applyOptionDiff? (updateName st pid inp.name)
        pid vopts).nextTagPk := by
      rw [htags2, hnext2]
      exact hlt
    have hnd2 : ((applyOptionDiff? (updateName st pid inp.name)
        pid vopts).tags.map Tag.pk).Nodup := by
      rw [htags2]
      exact hnd
    rcases htag : inp.tag_set with _ | ts <;> rw [htag] at hrun
    · injection hrun with hrun
      subst hrun
      intro t ht
      constructor
      · rw [htags2]
        exact ht
      · intro u hu hupk
        rw [htags2] at hu
        exact tag_pk_inj hnd hu ht hupk
    · have hrun' : processTags (applyOptionDiff? (updateName st pid inp.name)
          pid vopts) pid (validateTags ts) = Except.ok st' := hrun
      intro t ht
      exact processTags_preserves_rows hlt2 hnd2 hrun' t (htags2 ▸ ht)
  · intro st st' pid inp specs t hlt hnd htag h ht hnomatch
    obtain ⟨vopts, -, hrun⟩ := updateProduct_ok_inv h
    rw [htag] at hrun
    have hrun' : processTags (applyOptionDiff? (updateName st pid inp.name)
        pid vopts) pid (validateTags specs) = Except.ok st' := hrun
    have hframe := applyOptionDiff?_frame (updateName st pid inp.name) pid vopts
    have hnframe := updateName_frame st pid inp.name
    have htags2 : (applyOptionDiff? (updateName st pid inp.name)
        pid vopts).tags = st.tags := hframe.1.trans hnframe.1
    have hnext2 : (applyOptionDiff? (updateName st pid inp.name)
        pid vopts).nextTagPk = st.nextTagPk :=
      hframe.2.2.2.trans hnframe.2.2.2.1
    have hlt2 : ∀ t ∈ (applyOptionDiff? (updateName st pid inp.name)
        pid vopts).tags, t.pk < (applyOptionDiff? (updateName st pid inp.name)
        pid vopts).nextTagPk := by
      rw [htags2, hnext2]
      exact hlt
    have hnd2 : ((applyOptionDiff? (updateName st pid inp.name)
        pid vopts).tags.map Tag.pk).Nodup := by
      rw [htags2]
      exact hnd
    intro hcontra
    obtain ⟨u, humem, hupk, s, hsv, hsn⟩ :=
      processTags_resolved_names (validateTags_no_livePk specs) hrun'
        t.pk hcontra
    obtain ⟨-, huniq⟩ :=
      processTags_preserves_rows hlt2 hnd2 hrun' t (htags2 ▸ ht)
    have hut : u = t := huniq u humem hupk
    subst hut
    rcases List.mem_map.mp hsv with ⟨s0, hs0, hs0e⟩
    apply hnomatch s0 hs0
    rw [← hsn, ← hs0e]
    rfl

/-- C9 witness: in the PATCH of the counterexample — one spec
`{pk: 1, name: "Other"}` against `sampleStore`, whose tag 1 is named
`"T"` — tag 1 is not associated with product 1 afterward. -/
theorem C9_witness :
    (1, (⟨1, "T"⟩ : Tag).pk) ∉
      (⟨[⟨1, "T"⟩, ⟨2, "Other"⟩], [⟨1, "P"⟩], [], [(1, 2)], 3, 2, 1⟩ :
        Store).assoc :=
  C9_tag_rows_immutable_pk_ignored.2 sampleStore
    ⟨[⟨1, "T"⟩, ⟨2, "Other"⟩], [⟨1, "P"⟩], [], [(1, 2)], 3, 2, 1⟩ 1
    ⟨none, none, some [⟨some 1, some "Other"⟩]⟩ [⟨some 1, some "Other"⟩]
    ⟨1, "T"⟩ (by decide) (by decide) rfl (by decide) (by decide) (by decide)


/-- Pks determine option rows in a table with duplicate-free pks. -/
theorem opt_pk_inj {l : List ProductOption}
    (hnd : (l.map ProductOption.pk).Nodup) {a b : ProductOption}
    (ha : a ∈ l) (hb : b ∈ l) (hpk : a.pk = b.pk) : a = b := by
  induction l with
  | nil => cases ha
  | cons x l ih =>
    simp only [List.map_cons, List.nodup_cons] at hnd
    rcases List.mem_cons.mp ha with ha' | ha' <;>
      rcases List.mem_cons.mp hb with hb' | hb'
    · rw [ha', hb']
    · subst ha'
      exact absurd (hpk ▸ List.mem_map_of_mem ProductOption.pk hb') hnd.1
    · subst hb'
      exact absurd (hpk ▸ List.mem_map_of_mem ProductOption.pk ha') hnd.1
    · exact ih hnd.2 ha' hb'

theorem filterMap_pk_nodup_tail {a : OptionSpec} {rest : List OptionSpec}
    (h : ((a :: rest).filterMap OptionSpec.pk).Nodup) :
    (rest.filterMap OptionSpec.pk).Nodup := by
  rw [List.filterMap_cons] at h
  cases ha : a.pk with
  | none =>
    rw [ha] at h
    exact h
  | some p =>
    rw [ha] at h
    exact h.of_cons

/-- In a spec list with duplicate-free submitted pks, `find?` by a
member's pk returns exactly that member. -/
theorem find?_spec_of_nodup :
    ∀ {specs : List OptionSpec}, (specs.filterMap OptionSpec.pk).Nodup →
    ∀ {s : OptionSpec} {k : Nat}, s ∈ specs → s.pk = some k →
    specs.find? (fun x => x.pk == some k) = some s := by
  intro specs
  induction specs with
  | nil =>
    intro _ s k hs
    cases hs
  | cons a rest ih =>
    intro hnd s k hs hk
    rcases List.mem_cons.mp hs with he | hm
    · subst he
      rw [List.find?_cons_of_pos]
      simp [hk]
    · by_cases hak : a.pk = some k
      · exfalso
        have hkmem : k ∈ rest.filterMap OptionSpec.pk :=
          List.mem_filterMap.mpr ⟨s, hm, hk⟩
        rw [List.filterMap_cons, hak] at hnd
        exact (List.nodup_cons.mp hnd).1 hkmem
      · rw [List.find?_cons_of_neg]
        · exact ih (filterMap_pk_nodup_tail hnd) hm hk
        · simp [hak]

/-- A spec whose pk matches an owned option rewrites that option's name
and price in place. -/
theorem applyOptionDiff_update_mem {st : Store} {pid : Nat}
    {specs : List OptionSpec}
    (hnds : (specs.filterMap OptionSpec.pk).Nodup)
    {o : ProductOption} (ho : o ∈ st.options) (hop : o.productPk = pid)
    {s : OptionSpec} (hs : s ∈ specs) (hk : s.pk = some o.pk) :
    { o with name := s.name, price := s.price } ∈
      (applyOptionDiff st pid specs).options := by
  have hmemk : o ∈ st.options.filter
      (fun x => x.productPk != pid ||
        (specs.filterMap OptionSpec.pk).contains x.pk) := by
    apply List.mem_filter.mpr
    refine ⟨ho, ?_⟩
    have hin : o.pk ∈ specs.filterMap OptionSpec.pk :=
      List.mem_filterMap.mpr ⟨s, hs, hk⟩
    simp [hin]
  have hfind : specs.find? (fun x => x.pk == some o.pk) = some s :=
    find?_spec_of_nodup hnds hs hk
  have himg : { o with name := s.name, price := s.price } =
      (fun x : ProductOption =>
        if x.productPk == pid then
          match specs.find? (fun y => y.pk == some x.pk) with
          | some y => { x with name := y.name, price := y.price }
          | none => x
        else x) o := by
    simp [hop, hfind]
  apply List.mem_append_left
  rw [himg]
  exact List.mem_map_of_mem _ hmemk

/-- A spec with no matching owned pk creates a fresh option owned by the
product, with a pk at or above the counter. -/
theorem applyOptionDiff_create_mem {st : Store} {pid : Nat}
    {specs : List OptionSpec} {s : OptionSpec} (hs : s ∈ specs)
    (hno : ∀ o ∈ st.options, o.productPk = pid → s.pk ≠ some o.pk) :
    ∃ o', o' ∈ (applyOptionDiff st pid specs).options ∧ o'.productPk = pid ∧
      o'.name = s.name ∧ o'.price = s.price ∧ st.nextOptionPk ≤ o'.pk := by
  have hupd : isOptionUpdate
      ((st.options.filter (fun o => o.productPk == pid)).map
        ProductOption.pk) s = false := by
    cases hp : s.pk with
    | none => simp [isOptionUpdate, hp]
    | some p =>
      simp only [isOptionUpdate, hp]
      by_contra hc
      simp only [Bool.not_eq_false] at hc
      have hpmem : p ∈ (st.options.filter
          (fun o => o.productPk == pid)).map ProductOption.pk := by
        simpa using hc
      rcases List.mem_map.mp hpmem with ⟨o, homem, hopk⟩
      obtain ⟨ho1, ho2⟩ := List.mem_filter.mp homem
      exact hno o ho1 (by simpa using ho2) (by rw [hp, hopk])
  have hmem : s ∈ specs.filter (fun x => !(isOptionUpdate
      ((st.options.filter (fun o => o.productPk == pid)).map
        ProductOption.pk) x)) :=
    List.mem_filter.mpr ⟨hs, by rw [hupd]; rfl⟩
  obtain ⟨k, hk, hkm⟩ := mkCreated_mem_of_spec _ st.nextOptionPk hmem
  exact ⟨⟨k, pid, s.name, s.price⟩, List.mem_append_right _ hkm, rfl, rfl,
    rfl, hk⟩

/-- An owned option whose pk is absent from the submitted list is
deleted: no option with its pk survives the diff. -/
theorem applyOptionDiff_deletes {st : Store} {pid : Nat}
    {specs : List OptionSpec}
    (hlt : ∀ o ∈ st.options, o.pk < st.nextOptionPk)
    (hnd : (st.options.map ProductOption.pk).Nodup)
    {o : ProductOption} (ho : o ∈ st.options) (hop : o.productPk = pid)
    (habs : ∀ s ∈ specs, s.pk ≠ some o.pk) :
    ∀ o' ∈ (applyOptionDiff st pid specs).options, o'.pk ≠ o.pk := by
  intro o' ho' heq
  rcases List.mem_append.mp ho' with hm | hm
  · rcases List.mem_map.mp hm with ⟨u, hu, hfu⟩
    have hu' : u ∈ st.options := (List.mem_filter.mp hu).1
    have hcond := (List.mem_filter.mp hu).2
    have hpk : o'.pk = u.pk := by
      rw [← hfu]
      by_cases hcase : (u.productPk == pid) = true
      · simp only [if_pos hcase]
        rcases hf : specs.find? (fun y => y.pk == some u.pk) with _ | y <;>
          simp [hf]
      · simp [hcase]
    have huo : u = o := opt_pk_inj hnd hu' ho (by rw [← hpk, heq])
    subst huo
    rw [hop] at hcond
    simp only [bne_self_eq_false, Bool.false_or] at hcond
    have : u.pk ∈ specs.filterMap OptionSpec.pk := by simpa using hcond
    rcases List.mem_filterMap.mp this with ⟨s, hsmem, hspk⟩
    exact habs s hsmem hspk
  · obtain ⟨-, hge, -⟩ := mkCreated_mem _ _ hm
    rw [heq] at hge
    exact absurd (hlt o ho) (Nat.not_lt_of_le hge)

/-! ### Claim theorems: options, endpoints -/

/-- C3: an option name that is empty after stripping surrounding
whitespace is rejected with a validation error on the option field
(failing the whole request), while a valid one is accepted and stored —
and returned — stripped: the options of a product created with
`option_set = specs` carry exactly the stripped submitted names, in
order. -/
theorem C3_option_name_validated_and_trimmed :
    (∀ v : String, pyStrip v = "" →
      validate_name v = Except.error optionNameMsg) ∧
    (∀ v : String, pyStrip v ≠ "" →
      validate_name v = Except.ok (pyStrip v)) ∧
    (∀ (st : Store) (inp : ProductInput) (specs : List OptionSpec),
      inp.option_set = some specs → (∃ o ∈ specs, pyStrip o.name = "") →
      createProduct st inp =
        Except.error (ReqError.validation "option_set" optionNameMsg)) ∧
    (∀ (st st' : Store) (inp : ProductInput) (specs : List OptionSpec)
      (pid : Nat),
      (∀ o ∈ st.options, o.productPk < st.nextProductPk) →
      inp.option_set = some specs →
      createProduct st inp = Except.ok (st', pid) →
      ((st'.options.filter (fun o => o.productPk == pid)).map
        ProductOption.name) = specs.map (fun o => pyStrip o.name)) := by
  refine ⟨fun v h => validate_name_error h, fun v h => validate_name_ok h,
    ?_, ?_⟩
  · intro st inp specs hset hex
    simp only [createProduct, hset, Option.getD_some,
      validateOptions_error specs hex]
  · intro st st' inp specs pid hlt hset h
    simp only [createProduct, hset, Option.getD_some] at h
    split at h
    · cases h
    next vopts hv =>
      split at h
      · cases h
      next st3 hpt =>
        injection h with h
        injection h with h1 h2
        subst h1
        subst h2
        obtain ⟨hopt, -, -, -⟩ := processTags_ok_frame hpt
        have hfresh : ∀ o ∈ st.options, o.productPk ≠ st.nextProductPk :=
          fun o ho => Nat.ne_of_lt (hlt o ho)
        have hfresh1 : ∀ o ∈ ({ st with
            products := st.products ++ [⟨st.nextProductPk, inp.name⟩],
            nextProductPk := st.nextProductPk + 1 } : Store).options,
            o.productPk ≠ st.nextProductPk := hfresh
        rw [hopt, applyOptionDiff_fresh vopts hfresh1]
        dsimp only
        rw [List.filter_append]
        have h1 : st.options.filter
            (fun o => o.productPk == st.nextProductPk) = [] :=
          List.filter_eq_nil_iff.mpr (fun o ho => by simpa using hfresh o ho)
        have h2 : (mkCreated st.nextProductPk st.nextOptionPk vopts).filter
            (fun o => o.productPk == st.nextProductPk) =
            mkCreated st.nextProductPk st.nextOptionPk vopts :=
          List.filter_eq_self.mpr (fun o ho => by
            simp [(mkCreated_mem _ _ ho).1])
        rw [h1, h2, List.nil_append, mkCreated_map_name,
          validateOptions_ok_shape hv, List.map_map]
        rfl

/-- C3 witness: a whitespace-only option name fails the whole create with
the documented option error. -/
theorem C3_witness :
    createProduct sampleStore ⟨"Q", some [⟨none, " ", 5⟩], none⟩ =
      Except.error (ReqError.validation "option_set" optionNameMsg) :=
  C3_option_name_validated_and_trimmed.2.2.1 sampleStore
    ⟨"Q", some [⟨none, " ", 5⟩], none⟩ [⟨none, " ", 5⟩] rfl
    ⟨⟨none, " ", 5⟩, by decide, by decide⟩

/-- C7: a PATCH that omits `option_set` leaves the product's options
untouched in count and content (and leaves the option counter alone),
whatever else the request updates. -/
theorem C7_omitted_option_set_keeps_options :
    ∀ (st st' : Store) (pid : Nat) (inp : ProductPatch),
      inp.option_set = none → updateProduct st pid inp = Except.ok st' →
      st'.options = st.options ∧ st'.nextOptionPk = st.nextOptionPk := by
  intro st st' pid inp hopt h
  obtain ⟨vopts, hvo, hrun⟩ := updateProduct_ok_inv h
  rw [hopt] at hvo
  injection hvo with hvo
  subst hvo
  rw [applyOptionDiff?_none] at hrun
  obtain ⟨ho, -, hc, -⟩ := processTags?_ok_frame hrun
  obtain ⟨-, ho1, -, -, hc1⟩ := updateName_frame st pid inp.name
  exact ⟨ho.trans ho1, hc.trans hc1⟩

/-- C7 witness: renaming product 1 without an `option_set` leaves both
owned options in place. -/
theorem C7_witness :
    ({ sampleStore2 with products := [⟨1, "Q"⟩] } : Store).options =
      sampleStore2.options ∧
    ({ sampleStore2 with products := [⟨1, "Q"⟩] } : Store).nextOptionPk =
      sampleStore2.nextOptionPk :=
  C7_omitted_option_set_keeps_options sampleStore2
    { sampleStore2 with products := [⟨1, "Q"⟩] } 1 ⟨some "Q", none, none⟩
    rfl (by decide)

/-- C6: omitting `tag_set` from a PATCH leaves the tag association (and
the tag table) untouched, while submitting `tag_set = []` clears the
product's associations — and only them — without deleting any Tag row. -/
theorem C6_omitted_vs_empty_tag_set :
    (∀ (st st' : Store) (pid : Nat) (inp : ProductPatch),
      inp.tag_set = none → updateProduct st pid inp = Except.ok st' →
      st'.assoc = st.assoc ∧ st'.tags = st.tags) ∧
    (∀ (st st' : Store) (pid : Nat) (inp : ProductPatch),
      inp.tag_set = some [] → updateProduct st pid inp = Except.ok st' →
      st'.assoc = st.assoc.filter (fun a => a.1 != pid) ∧
        st'.tags = st.tags) := by
  constructor
  · intro st st' pid inp htag h
    obtain ⟨vopts, -, hrun⟩ := updateProduct_ok_inv h
    rw [htag] at hrun
    injection hrun with hrun
    subst hrun
    obtain ⟨ht1, -, ha1, -, -⟩ := updateName_frame st pid inp.name
    obtain ⟨ht2, -, ha2, -⟩ :=
      applyOptionDiff?_frame (updateName st pid inp.name) pid vopts
    exact ⟨ha2.trans ha1, ht2.trans ht1⟩
  · intro st st' pid inp htag h
    obtain ⟨vopts, -, hrun⟩ := updateProduct_ok_inv h
    rw [htag] at hrun
    have hrun' : processTags
        (applyOptionDiff? (updateName st pid inp.name) pid vopts) pid [] =
        Except.ok st' := hrun
    injection hrun' with hrun'
    obtain ⟨ht1, -, ha1, -, -⟩ := updateName_frame st pid inp.name
    obtain ⟨ht2, -, ha2, -⟩ :=
      applyOptionDiff?_frame (updateName st pid inp.name) pid vopts
    constructor
    · rw [← hrun']
      show ((applyOptionDiff? (updateName st pid inp.name) pid
        vopts).assoc.filter (fun a => a.1 != pid)) ++ [] = _
      rw [List.append_nil, ha2, ha1]
    · rw [← hrun']
      show (applyOptionDiff? (updateName st pid inp.name) pid vopts).tags = _
      rw [ht2, ht1]

/-- C6 witness: PATCHing product 1 with `tag_set: []` clears its
association with tag 1 while the tag row survives. -/
theorem C6_witness :
    ({ sampleStore2 with assoc := [] } : Store).assoc =
      sampleStore2.assoc.filter (fun a => a.1 != 1) ∧
    ({ sampleStore2 with assoc := [] } : Store).tags = sampleStore2.tags :=
  C6_omitted_vs_empty_tag_set.2 sampleStore2
    { sampleStore2 with assoc := [] } 1 ⟨none, none, some []⟩ rfl (by decide)

/-- C8: deleting a product removes its row, its owned options and its
association rows — nothing else: other products and options survive, and
the tag table is untouched, so every Tag existing before still exists. -/
theorem C8_destroy_cascades_options_preserves_tags :
    ∀ (st st' : Store) (pid : Nat),
      destroyProduct st pid = Except.ok st' →
      st'.tags = st.tags ∧
      (∀ pr ∈ st'.products, pr.pk ≠ pid) ∧
      (∀ o ∈ st'.options, o.productPk ≠ pid) ∧
      (∀ a ∈ st'.assoc, a.1 ≠ pid) ∧
      (∀ o ∈ st.options, o.productPk ≠ pid → o ∈ st'.options) ∧
      (∀ pr ∈ st.products, pr.pk ≠ pid → pr ∈ st'.products) := by
  intro st st' pid h
  by_cases hex : (st.products.any (fun pr => pr.pk == pid)) = true
  · simp only [destroyProduct, if_pos hex] at h
    injection h with h
    subst h
    refine ⟨rfl, ?_, ?_, ?_, ?_, ?_⟩
    · intro pr hpr
      simpa using (List.mem_filter.mp hpr).2
    · intro o ho
      simpa using (List.mem_filter.mp ho).2
    · intro a ha
      simpa using (List.mem_filter.mp ha).2
    · intro o ho hne
      exact List.mem_filter.mpr ⟨ho, by simpa using hne⟩
    · intro pr hpr hne
      exact List.mem_filter.mpr ⟨hpr, by simpa using hne⟩
  · simp only [destroyProduct, if_neg hex] at h
    cases h

/-- C8 witness: deleting product 1 of `sampleStore2` removes its two
options and its association while tag 1 survives. -/
theorem C8_witness :
    (⟨[⟨1, "T"⟩], [], [], [], 2, 2, 3⟩ : Store).tags = sampleStore2.tags ∧
    (∀ pr ∈ (⟨[⟨1, "T"⟩], [], [], [], 2, 2, 3⟩ : Store).products,
      pr.pk ≠ 1) ∧
    (∀ o ∈ (⟨[⟨1, "T"⟩], [], [], [], 2, 2, 3⟩ : Store).options,
      o.productPk ≠ 1) ∧
    (∀ a ∈ (⟨[⟨1, "T"⟩], [], [], [], 2, 2, 3⟩ : Store).assoc, a.1 ≠ 1) ∧
    (∀ o ∈ sampleStore2.options, o.productPk ≠ 1 →
      o ∈ (⟨[⟨1, "T"⟩], [], [], [], 2, 2, 3⟩ : Store).options) ∧
    (∀ pr ∈ sampleStore2.products, pr.pk ≠ 1 →
      pr ∈ (⟨[⟨1, "T"⟩], [], [], [], 2, 2, 3⟩ : Store).products) :=
  C8_destroy_cascades_options_preserves_tags sampleStore2
    ⟨[⟨1, "T"⟩], [], [], [], 2, 2, 3⟩ 1 (by decide)

/-- C4: with `option_set` present, a PATCH reconciles options as a
full-replacement diff keyed by id: a spec whose pk matches an owned
option rewrites that option's name (stripped) and price in place, a spec
with no matching owned pk creates a fresh owned option, and every owned
option whose pk is absent from the submitted list is deleted. -/
theorem C4_option_full_replacement_diff :
    ∀ (st st' : Store) (pid : Nat) (inp : ProductPatch)
      (specs : List OptionSpec),
      inp.option_set = some specs →
      (∀ o ∈ st.options, o.pk < st.nextOptionPk) →
      (st.options.map ProductOption.pk).Nodup →
      (specs.filterMap OptionSpec.pk).Nodup →
      updateProduct st pid inp = Except.ok st' →
      (∀ o ∈ st.options, o.productPk = pid → ∀ s ∈ specs,
        s.pk = some o.pk →
        { o with name := pyStrip s.name, price := s.price } ∈ st'.options) ∧
      (∀ s ∈ specs,
        (∀ o ∈ st.options, o.productPk = pid → s.pk ≠ some o.pk) →
        ∃ o', o' ∈ st'.options ∧ o'.productPk = pid ∧
          o'.name = pyStrip s.name ∧ o'.price = s.price ∧
          st.nextOptionPk ≤ o'.pk) ∧
      (∀ o ∈ st.options, o.productPk = pid →
        (∀ s ∈ specs, s.pk ≠ some o.pk) →
        ∀ o' ∈ st'.options, o'.pk ≠ o.pk) := by
  intro st st' pid inp specs hset hlt hnd hnds h
  obtain ⟨vopts, hvo, hrun⟩ := updateProduct_ok_inv h
  rw [hset] at hvo
  simp only [validateOptions?] at hvo
  rcases hv : validateOptions specs with e | v <;> rw [hv] at hvo
  · cases hvo
  · injection hvo with hvo
    subst hvo
    have hshape := validateOptions_ok_shape hv
    subst hshape
    obtain ⟨hopt, -, -, -⟩ := processTags?_ok_frame hrun
    obtain ⟨-, ho1, -, -, hc1⟩ := updateName_frame st pid inp.name
    have hoeq : st'.options = (applyOptionDiff (updateName st pid inp.name)
        pid (specs.map (fun o => { o with name := pyStrip o.name }))).options :=
      hopt
    have hlt1 : ∀ o ∈ (updateName st pid inp.name).options,
        o.pk < (updateName st pid inp.name).nextOptionPk := by
      rw [ho1, hc1]
      exact hlt
    have hnd1 : ((updateName st pid inp.name).options.map
        ProductOption.pk).Nodup := by
      rw [ho1]
      exact hnd
    have hnds1 : ((specs.map (fun o =>
        { o with name := pyStrip o.name })).filterMap OptionSpec.pk).Nodup := by
      rw [List.filterMap_map]
      exact hnds
    refine ⟨?_, ?_, ?_⟩
    · intro o ho hop s hs hk
      have ho' : o ∈ (updateName st pid inp.name).options := by
        rw [ho1]
        exact ho
      have hsv : ({ s with name := pyStrip s.name } : OptionSpec) ∈
          specs.map (fun o => { o with name := pyStrip o.name }) :=
        List.mem_map_of_mem _ hs
      rw [hoeq]
      exact applyOptionDiff_update_mem hnds1 ho' hop hsv hk
    · intro s hs hno
      have hsv : ({ s with name := pyStrip s.name } : OptionSpec) ∈
          specs.map (fun o => { o with name := pyStrip o.name }) :=
        List.mem_map_of_mem _ hs
      have hno1 : ∀ o ∈ (updateName st pid inp.name).options,
          o.productPk = pid →
          ({ s with name := pyStrip s.name } : OptionSpec).pk ≠ some o.pk := by
        rw [ho1]
        exact hno
      obtain ⟨o', hmem, h1, h2, h3, h4⟩ := applyOptionDiff_create_mem hsv hno1
      refine ⟨o', ?_, h1, h2, h3, ?_⟩
      · rw [hoeq]
        exact hmem
      · rw [← hc1]
        exact h4
    · intro o ho hop habs o' ho'
      have hmem : o ∈ (updateName st pid inp.name).options := by
        rw [ho1]
        exact ho
      have habs1 : ∀ s ∈ specs.map (fun o => { o with name := pyStrip o.name }),
          s.pk ≠ some o.pk := by
        intro s hsv
        rcases List.mem_map.mp hsv with ⟨s0, hs0, hs0e⟩
        rw [← hs0e]
        exact habs s0 hs0
      apply applyOptionDiff_deletes hlt1 hnd1 hmem hop habs1
      rw [← hoeq]
      exact ho'

/-- C4 witness: PATCHing product 1 of `sampleStore2` with
`option_set = [{pk: 1, name: "O1x", price: 111}, {name: "O3", price: 300}]`
updates option 1 in place; the updated row is in the resulting store. -/
theorem C4_witness :
    ({ pk := 1, productPk := 1, name := pyStrip "O1x", price := 111 } :
      ProductOption) ∈
      ([⟨1, 1, "O1x", 111⟩, ⟨3, 1, "O3", 300⟩] : List ProductOption) :=
  (C4_option_full_replacement_diff sampleStore2
    { sampleStore2 with options := [⟨1, 1, "O1x", 111⟩, ⟨3, 1, "O3", 300⟩],
                        nextOptionPk := 4 }
    1 ⟨none, some [⟨some 1, "O1x", 111⟩, ⟨none, "O3", 300⟩], none⟩
    [⟨some 1, "O1x", 111⟩, ⟨none, "O3", 300⟩]
    rfl (by decide) (by decide) (by decide) (by decide)).1
    ⟨1, 1, "O1", 100⟩ (by decide) rfl ⟨some 1, "O1x", 111⟩ (by decide) rfl

/-- C2: the two sides of the atomicity claim, evaluated on the code. A
create — or update — whose option name fails validation does roll back:
the store is returned untouched with the error. But the claim's other trigger — a
referenced tag pk that does not exist — never fires: on the repository's
own test request (`tests.py`,
`test_create_product_with_invalid_existing_tag_pk`, which expects a
400/404) the read-only pk is stripped by input validation, the request
succeeds, and the commit keeps a new Product row, a new ProductOption
row, a fresh Tag row and a new association — storage is changed, not
rolled back. -/
theorem C2_rollback_only_for_reachable_errors :
    runCreate sampleStore ⟨"Q", some [⟨none, " ", 5⟩], none⟩ =
      (sampleStore,
        some (ReqError.validation "option_set" optionNameMsg)) ∧
    runUpdate sampleStore2 1 ⟨none, some [⟨none, " ", 5⟩], none⟩ =
      (sampleStore2,
        some (ReqError.validation "option_set" optionNameMsg)) ∧
    runCreate sampleStore
        ⟨"InvalidTagProduct", some [⟨none, "Option1", 1000⟩],
          some [⟨some 99999, some "NonExistentTag"⟩]⟩ =
      (⟨[⟨1, "T"⟩, ⟨2, "NonExistentTag"⟩],
        [⟨1, "P"⟩, ⟨2, "InvalidTagProduct"⟩],
        [⟨1, 2, "Option1", 1000⟩], [(2, 2)], 3, 3, 2⟩, none) := by
  decide

/-- C10 witness: the amended claim at the counterexample's input —
`"X"` and `" X "` strip to the same fresh name, and one row storing
`pyStrip "X"` is created. -/
theorem C10_witness :
    ∃ st', updateProduct sampleStore 1
        ⟨none, none, some [⟨none, some "X"⟩, ⟨none, some " X "⟩]⟩ =
        Except.ok st' ∧
      st'.tags = sampleStore.tags ++
        [⟨sampleStore.nextTagPk, pyStrip "X"⟩] :=
  C10_tag_names_trimmed_like_options sampleStore 1 none none "X" " X "
    (by decide) (by decide) (by decide)

end OkPos
